import Mathlib

/-!
# Verification of the graph-coloring engine

Shallow embedding of the step-trace graph-coloring program:
three vertex-coloring strategies (first-fit greedy, Welsh–Powell
degree-ordered greedy, DSATUR saturation-driven selection), the
edge-coloring reduction through the line graph, the trace summary,
and the graph generator dispatch.

A graph is a finite node list (in iteration order) together with an
edge list; adjacency is derived from the edge list in both directions.
Colorings are association lists in insertion order, mirroring Python
dictionaries; dictionary assignment is `dictInsert`, lookup is
`lookupC`.
-/

namespace GraphColoring

variable {V : Type} [DecidableEq V]

/-- A graph: node list in iteration order, plus an undirected edge list
(each edge recorded once, in one orientation). -/
structure Graph (V : Type) where
  nodes : List V
  edges : List (V × V)
deriving DecidableEq

/-- Neighbors of a vertex, derived from the edge list in both
directions, deduplicated (networkx adjacency is a set). -/
def Graph.neighbors (G : Graph V) (v : V) : List V :=
  (G.edges.filterMap (fun e =>
    if e.1 = v then some e.2 else if e.2 = v then some e.1 else none)).dedup

/-- Degree of a vertex: number of neighbors. -/
def Graph.degree (G : Graph V) (v : V) : ℕ :=
  (G.neighbors v).length

/-- Two (oriented) edge records denote the same undirected edge. -/
def sameEdge (e f : V × V) : Prop :=
  (e.1 = f.1 ∧ e.2 = f.2) ∨ (e.1 = f.2 ∧ e.2 = f.1)

instance (e f : V × V) : Decidable (sameEdge e f) := by
  unfold sameEdge; infer_instance

/-- Well-formed simple graph: nodes are distinct, every edge joins two
distinct existing nodes (no self-loops), and no undirected edge is
recorded twice. -/
def Graph.WF (G : Graph V) : Prop :=
  G.nodes.Nodup ∧
  (∀ e ∈ G.edges, e.1 ∈ G.nodes ∧ e.2 ∈ G.nodes ∧ e.1 ≠ e.2) ∧
  G.edges.Pairwise (fun e f => ¬ sameEdge e f)

instance (G : Graph V) : Decidable G.WF := by
  unfold Graph.WF; infer_instance

/-- Dictionary lookup on an association list (first matching key wins,
like a Python dict where keys are unique). -/
def lookupC (d : List (V × ℕ)) (v : V) : Option ℕ :=
  match d with
  | [] => none
  | (k, c) :: rest => if k = v then some c else lookupC rest v

/-- Lookup with default 0 (used only at keys known to be present). -/
def lookupD (d : List (V × ℕ)) (v : V) : ℕ :=
  (lookupC d v).getD 0

/-- Python dictionary assignment `d[k] = c`: update in place if the key
exists, otherwise append at the end (insertion order preserved). -/
def dictInsert (d : List (V × ℕ)) (k : V) (c : ℕ) : List (V × ℕ) :=
  match d with
  | [] => [(k, c)]
  | (k2, c2) :: rest =>
      if k2 = k then (k, c) :: rest else (k2, c2) :: dictInsert rest k c

/-- Keys of an association list, in order. -/
def keys (d : List (V × ℕ)) : List V :=
  d.map Prod.fst

/-- The incrementing loop `while color in used: color += 1`, with
explicit fuel. -/
def mexFrom (used : List ℕ) : ℕ → ℕ → ℕ
  | 0, c => c
  | fuel + 1, c => if c ∈ used then mexFrom used fuel (c + 1) else c

/-- Smallest color index not in `used` (the shared first-fit rule);
fuel `used.length + 1` always suffices. -/
def mexColor (used : List ℕ) : ℕ :=
  mexFrom used (used.length + 1) 0

/-- `{colors[n] for n in G.neighbors(node) if n in colors}`: the set of
colors already used on the neighbors of `node`. -/
def usedColors (G : Graph V) (colors : List (V × ℕ)) (node : V) : List ℕ :=
  ((G.neighbors node).filterMap (lookupC colors)).dedup

/-- One coloring decision: give `node` the smallest color absent from
its colored neighborhood (`colors[node] = color`). -/
def assignColor (G : Graph V) (colors : List (V × ℕ)) (node : V) :
    List (V × ℕ) :=
  dictInsert colors node (mexColor (usedColors G colors node))

/-- The loop shared by `greedy_steps` and `wp_steps`: color the vertices
of `order` in turn, snapshotting the coloring after every assignment. -/
def greedyAux (G : Graph V) : List V → List (V × ℕ) → List (List (V × ℕ))
  | [], _ => []
  | node :: rest, colors =>
      let colors2 := assignColor G colors node
      colors2 :: greedyAux G rest colors2

/-- `greedy_steps`: first-fit coloring in natural node order. -/
def greedy_steps (G : Graph V) : List (List (V × ℕ)) :=
  greedyAux G G.nodes []

/-- `sorted(G.nodes(), key=lambda n: G.degree(n), reverse=True)`:
stable sort by descending static degree. -/
def wpOrder (G : Graph V) : List V :=
  G.nodes.mergeSort (fun a b => G.degree b ≤ G.degree a)

/-- `wp_steps`: first-fit coloring in descending-degree order
(Welsh–Powell). -/
def wp_steps (G : Graph V) : List (List (V × ℕ)) :=
  greedyAux G (wpOrder G) []

/-- Strict lexicographic comparison of Python pairs
`(a, b) < (c, d)`. -/
def lexLt (p q : ℕ × ℕ) : Prop :=
  p.1 < q.1 ∨ (p.1 = q.1 ∧ p.2 < q.2)

instance (p q : ℕ × ℕ) : Decidable (lexLt p q) := by
  unfold lexLt; infer_instance

/-- Python `max(x :: xs, key=...)`: fold keeping the current maximum,
replacing it only on a strictly greater key, so the first maximal
element wins. -/
def pyMax (key : V → ℕ × ℕ) (x : V) (xs : List V) : V :=
  xs.foldl (fun best y => if lexLt (key best) (key y) then y else best) x

/-- DSATUR selection key: (saturation, static degree). -/
def satDegKey (G : Graph V) (sat : List (V × ℕ)) (x : V) : ℕ × ℕ :=
  (lookupD sat x, G.degree x)

/-- `len({colors[n] for n in G.neighbors(neigh) if n in colors})`:
recomputed saturation of a vertex. -/
def recomputeSat (G : Graph V) (colors : List (V × ℕ)) (x : V) : ℕ :=
  (usedColors G colors x).length

/-- The saturation-update loop after coloring `node`: recompute the
saturation of each still-uncolored neighbor of `node` only. -/
def updateSat (G : Graph V) (colors : List (V × ℕ)) (uncolored : List V)
    (sat : List (V × ℕ)) (node : V) : List (V × ℕ) :=
  (G.neighbors node).foldl
    (fun s neigh =>
      if neigh ∈ uncolored then dictInsert s neigh (recomputeSat G colors neigh)
      else s)
    sat

/-- The `while uncolored` loop of `dsatur_steps`, with fuel equal to the
number of uncolored vertices. -/
def dsaturAux (G : Graph V) :
    ℕ → List (V × ℕ) → List (V × ℕ) → List V → List (List (V × ℕ))
  | 0, _, _, _ => []
  | _ + 1, _, _, [] => []
  | fuel + 1, colors, sat, u :: us =>
      let node := pyMax (satDegKey G sat) u us
      let colors2 := assignColor G colors node
      let sat2 := updateSat G colors2 (u :: us) sat node
      colors2 :: dsaturAux G fuel colors2 sat2 ((u :: us).erase node)

/-- `dsatur_steps`: saturation-driven selection, first-fit assignment. -/
def dsatur_steps (G : Graph V) : List (List (V × ℕ)) :=
  dsaturAux G G.nodes.length [] (G.nodes.map (fun n => (n, 0))) G.nodes

/-- All ordered pairs of list elements at increasing positions. -/
def listPairs {α : Type} : List α → List (α × α)
  | [] => []
  | x :: xs => (xs.map (fun y => (x, y))) ++ listPairs xs

/-- Two (oriented) edge records share an endpoint. -/
def sharesEndpoint (e f : V × V) : Prop :=
  e.1 = f.1 ∨ e.1 = f.2 ∨ e.2 = f.1 ∨ e.2 = f.2

instance (e f : V × V) : Decidable (sharesEndpoint e f) := by
  unfold sharesEndpoint; infer_instance

/-- `nx.line_graph(G)`: one node per edge of `G`; two nodes adjacent iff
the corresponding source edges share an endpoint. -/
def lineGraph (G : Graph V) : Graph (V × V) :=
  { nodes := G.edges
    edges := (listPairs G.edges).filter
      (fun p => decide (sharesEndpoint p.1 p.2)) }

/-- The conversion loop of `edge_coloring_steps`: rebuild each snapshot
key by key (`converted[edge_node] = s[edge_node]`). -/
def convertDict (s : List ((V × V) × ℕ)) : List ((V × V) × ℕ) :=
  s.foldl (fun acc kv => dictInsert acc kv.1 (lookupD s kv.1)) []

/-- `edge_coloring_steps`: build the line graph, run `greedy_steps` on
it, convert every snapshot. -/
def edge_coloring_steps (G : Graph V) : List (List ((V × V) × ℕ)) :=
  (greedy_steps (lineGraph G)).map convertDict

/-- The last trace snapshot (the final coloring); `[]` if the trace is
empty. -/
def lastColoring {K : Type} (steps : List (List (K × ℕ))) : List (K × ℕ) :=
  (steps.getLast?).getD []

/-- `len(set(steps[-1].values()))` from `GraphApp.run`: `none` models
the `IndexError` raised by `steps[-1]` on an empty trace. -/
def nbColors {K : Type} [DecidableEq K] (steps : List (List (K × ℕ))) :
    Option ℕ :=
  (steps.getLast?).map (fun s => (s.map Prod.snd).dedup.length)

/-- The algorithm selector of the GUI. -/
inductive Algo
  | greedy
  | welshPowell
  | dsatur
deriving DecidableEq

/-- Vertex-mode dispatch in `GraphApp.run`. -/
def vertexRun (algo : Algo) (G : Graph V) : List (List (V × ℕ)) :=
  match algo with
  | .greedy => greedy_steps G
  | .welshPowell => wp_steps G
  | .dsatur => dsatur_steps G

/-- Edge-mode dispatch in `GraphApp.run`: the selected algorithm is
received but `edge_coloring_steps` is called without it. -/
def edgeRun (_algo : Algo) (G : Graph V) : List (List ((V × V) × ℕ)) :=
  edge_coloring_steps G

/-- Modelled from the spec (§4.2): the edge-coloring behavior the claim
describes — build the line graph, invoke the engine on it **with the
requested strategy**, convert each snapshot with no further
transformation. -/
def edgeRunPerClaim (algo : Algo) (G : Graph V) :
    List (List ((V × V) × ℕ)) :=
  (vertexRun algo (lineGraph G)).map convertDict

/-- `nx.cycle_graph(n)`: path 0,…,n-1 closed cyclically (a self-loop
for n = 1, a single edge for n = 2). -/
def cycleGraph (n : ℕ) : Graph ℕ :=
  if n = 0 then ⟨[], []⟩
  else if n = 1 then ⟨[0], [(0, 0)]⟩
  else if n = 2 then ⟨[0, 1], [(0, 1)]⟩
  else ⟨List.range n,
        ((List.range (n - 1)).map (fun i => (i, i + 1))) ++ [(n - 1, 0)]⟩

/-- `nx.complete_bipartite_graph(a, b)`: parts {0,…,a-1} and
{a,…,a+b-1}, all cross edges. -/
def completeBipartiteGraph (a b : ℕ) : Graph ℕ :=
  ⟨List.range (a + b),
   (List.range a).flatMap (fun i => (List.range b).map (fun j => (i, a + j)))⟩

/-- `generate_graph(graph_type, n, p)`. The Erdős–Rényi generator is an
external seeded library call, abstracted as the parameter `rng`. -/
def generate_graph (rng : ℕ → ℚ → Graph ℕ) (graph_type : String) (n : ℕ)
    (p : ℚ) : Graph ℕ :=
  if graph_type = "Cycle" then cycleGraph n
  else if graph_type = "Aléatoire" then rng n p
  else if graph_type = "Biparti" then completeBipartiteGraph (n / 2) (n - n / 2)
  else ⟨[], []⟩

/-! ## Predicates used by the verification -/

/-- Maximum degree of the graph (0 on an empty graph). -/
def maxDeg (G : Graph V) : ℕ :=
  (G.nodes.map G.degree).foldr max 0

/-- Properness of a (partial) coloring: the two endpoints of an edge
never both carry the same color. -/
def Proper (G : Graph V) (colors : List (V × ℕ)) : Prop :=
  ∀ e ∈ G.edges, ∀ cu cv, lookupC colors e.1 = some cu →
    lookupC colors e.2 = some cv → cu ≠ cv

/-- Invariant carried through every coloring run: `pending` is the list
of still-uncolored vertices. -/
structure GoodState (G : Graph V) (colors : List (V × ℕ))
    (pending : List V) : Prop where
  perm : (keys colors ++ pending).Perm G.nodes
  proper : Proper G colors
  unassigned : ∀ v ∈ pending, lookupC colors v = none
  bounded : ∀ p ∈ colors, p.2 ≤ maxDeg G
  contig : ∀ p ∈ colors, ∀ k < p.2, ∃ w, lookupC colors w = some k

/-- Each trace entry is the previous coloring plus exactly one freshly
assigned vertex. -/
def StepChain : List (V × ℕ) → List (List (V × ℕ)) → Prop
  | _, [] => True
  | prev, s :: rest =>
      (∃ v c, lookupC prev v = none ∧ s = prev ++ [(v, c)]) ∧ StepChain s rest

/-- A trace is append-only with independent snapshots: every entry
extends its predecessor by exactly one freshly assigned key, and any
assignment visible in an earlier entry is still present, unchanged, in
every later entry. -/
def AppendOnlyTrace (steps : List (List (V × ℕ))) : Prop :=
  (∀ i, (hi : i + 1 < steps.length) → ∃ v c,
      lookupC steps[i] v = none ∧ steps[i + 1] = steps[i] ++ [(v, c)]) ∧
  (∀ i j, (hi : i < steps.length) → (hj : j < steps.length) → i ≤ j →
      ∀ k c, lookupC steps[i] k = some c → lookupC steps[j] k = some c)

/-! ## Association-list lemmas -/

theorem lookupC_eq_none_iff {d : List (V × ℕ)} {v : V} :
    lookupC d v = none ↔ v ∉ keys d := by
  induction d with
  | nil => simp [lookupC, keys]
  | cons p rest ih =>
      obtain ⟨k, c⟩ := p
      by_cases hk : k = v
      · subst hk
        simp [lookupC, keys]
      · simp [lookupC, hk, keys, ih, Ne.symm hk]

theorem lookupC_isSome_of_mem_keys {d : List (V × ℕ)} {v : V}
    (h : v ∈ keys d) : ∃ c, lookupC d v = some c := by
  cases hl : lookupC d v with
  | none => exact absurd (lookupC_eq_none_iff.mp hl) (by simpa using h)
  | some c => exact ⟨c, rfl⟩

theorem mem_keys_of_lookupC {d : List (V × ℕ)} {v : V} {c : ℕ}
    (h : lookupC d v = some c) : v ∈ keys d := by
  by_contra hv
  rw [← lookupC_eq_none_iff] at hv
  simp [hv] at h

theorem lookupC_mem {d : List (V × ℕ)} {v : V} {c : ℕ}
    (h : lookupC d v = some c) : (v, c) ∈ d := by
  induction d with
  | nil => simp [lookupC] at h
  | cons p rest ih =>
      obtain ⟨k, c2⟩ := p
      by_cases hk : k = v
      · subst hk
        simp [lookupC] at h
        simp [h]
      · simp [lookupC, hk] at h
        exact List.mem_cons_of_mem _ (ih h)

theorem lookupC_of_mem_nodup {d : List (V × ℕ)} {v : V} {c : ℕ}
    (hd : (keys d).Nodup) (h : (v, c) ∈ d) : lookupC d v = some c := by
  induction d with
  | nil => simp at h
  | cons p rest ih =>
      obtain ⟨k, c2⟩ := p
      simp only [keys, List.map_cons, List.nodup_cons] at hd
      rcases List.mem_cons.mp h with h1 | h1
      · have hv : k = v := (Prod.ext_iff.mp h1).1.symm
        have hc : c2 = c := (Prod.ext_iff.mp h1).2.symm
        simp [lookupC, hv, hc]
      · have hk : k ≠ v := by
          intro hkv
          subst hkv
          exact hd.1 (by
            simpa [keys] using List.mem_map_of_mem Prod.fst h1)
        simp [lookupC, hk]
        exact ih hd.2 h1

theorem lookupC_append_some {d d2 : List (V × ℕ)} {v : V} {c : ℕ}
    (h : lookupC d v = some c) : lookupC (d ++ d2) v = some c := by
  induction d with
  | nil => simp [lookupC] at h
  | cons p rest ih =>
      obtain ⟨k, c2⟩ := p
      by_cases hk : k = v
      · simp_all [lookupC]
      · simp_all [lookupC, hk]

theorem lookupC_append_none {d d2 : List (V × ℕ)} {v : V}
    (h : lookupC d v = none) : lookupC (d ++ d2) v = lookupC d2 v := by
  induction d with
  | nil => simp
  | cons p rest ih =>
      obtain ⟨k, c2⟩ := p
      by_cases hk : k = v
      · simp [lookupC, hk] at h
      · simp_all [lookupC, hk]

theorem keys_append (d d2 : List (V × ℕ)) :
    keys (d ++ d2) = keys d ++ keys d2 := by
  simp [keys]

theorem lookupC_singleton {k w : V} {c : ℕ} :
    lookupC [(k, c)] w = if k = w then some c else none := by
  simp [lookupC]

theorem dictInsert_of_lookup_none {d : List (V × ℕ)} {k : V} {c : ℕ}
    (h : lookupC d k = none) : dictInsert d k c = d ++ [(k, c)] := by
  induction d with
  | nil => simp [dictInsert]
  | cons p rest ih =>
      obtain ⟨k2, c2⟩ := p
      by_cases hk : k2 = k
      · simp [lookupC, hk] at h
      · simp [lookupC, hk] at h
        simp [dictInsert, hk, ih h]

theorem lookupC_dictInsert_self (d : List (V × ℕ)) (k : V) (c : ℕ) :
    lookupC (dictInsert d k c) k = some c := by
  induction d with
  | nil => simp [dictInsert, lookupC]
  | cons p rest ih =>
      obtain ⟨k2, c2⟩ := p
      by_cases hk : k2 = k
      · simp [dictInsert, hk, lookupC]
      · simp [dictInsert, hk, lookupC, ih]

theorem lookupC_dictInsert_ne {d : List (V × ℕ)} {k x : V} (c : ℕ)
    (h : k ≠ x) : lookupC (dictInsert d k c) x = lookupC d x := by
  induction d with
  | nil => simp [dictInsert, lookupC, h]
  | cons p rest ih =>
      obtain ⟨k2, c2⟩ := p
      by_cases hk : k2 = k
      · subst hk
        simp [dictInsert, lookupC, h]
      · by_cases hx : k2 = x
        · subst hx
          simp [dictInsert, hk, lookupC]
        · simp [dictInsert, hk, lookupC, hx, ih]

/-! ## First-fit color lemmas -/

theorem mexFrom_min {used : List ℕ} :
    ∀ fuel c k, c ≤ k → k < mexFrom used fuel c → k ∈ used := by
  intro fuel
  induction fuel with
  | zero => intro c k hck hk; simp [mexFrom] at hk; omega
  | succ f ih =>
      intro c k hck hk
      by_cases hc : c ∈ used
      · simp only [mexFrom, if_pos hc] at hk
        rcases Nat.eq_or_lt_of_le hck with h | h
        · exact h ▸ hc
        · exact ih (c + 1) k h hk
      · simp [mexFrom, hc] at hk
        omega

theorem mexFrom_not_mem {used : List ℕ} :
    ∀ fuel c, (∃ k, c ≤ k ∧ k < c + fuel ∧ k ∉ used) →
      mexFrom used fuel c ∉ used := by
  intro fuel
  induction fuel with
  | zero => intro c ⟨k, h1, h2, _⟩; omega
  | succ f ih =>
      intro c ⟨k, h1, h2, h3⟩
      by_cases hc : c ∈ used
      · simp only [mexFrom, if_pos hc]
        refine ih (c + 1) ⟨k, ?_, by omega, h3⟩
        rcases Nat.eq_or_lt_of_le h1 with h | h
        · exact absurd (h ▸ hc) h3
        · omega
      · simp [mexFrom, hc]

theorem mexColor_not_mem (used : List ℕ) : mexColor used ∉ used := by
  refine mexFrom_not_mem _ 0 ?_
  by_contra h
  push_neg at h
  have hsub : Finset.range (used.length + 1) ⊆ used.toFinset := by
    intro k hk
    rw [Finset.mem_range] at hk
    rw [List.mem_toFinset]
    exact h k (by omega) (by omega)
  have h1 := Finset.card_le_card hsub
  have h2 := used.toFinset_card_le
  simp at h1
  omega

theorem mexColor_min {used : List ℕ} {k : ℕ} (h : k < mexColor used) :
    k ∈ used :=
  mexFrom_min _ 0 k (Nat.zero_le k) h

theorem mexColor_le_length (used : List ℕ) : mexColor used ≤ used.length := by
  by_contra h
  push_neg at h
  have hsub : Finset.range (used.length + 1) ⊆ used.toFinset := by
    intro k hk
    rw [Finset.mem_range] at hk
    rw [List.mem_toFinset]
    exact mexColor_min (by omega)
  have h1 := Finset.card_le_card hsub
  have h2 := used.toFinset_card_le
  simp at h1
  omega

/-! ## Neighborhood lemmas -/

theorem mem_neighbors_left {G : Graph V} {u v : V} (h : (u, v) ∈ G.edges) :
    v ∈ G.neighbors u := by
  rw [Graph.neighbors, List.mem_dedup, List.mem_filterMap]
  exact ⟨(u, v), h, by simp⟩

theorem mem_neighbors_right {G : Graph V} {u v : V} (h : (u, v) ∈ G.edges) :
    u ∈ G.neighbors v := by
  rw [Graph.neighbors, List.mem_dedup, List.mem_filterMap]
  by_cases huv : u = v
  · exact ⟨(u, v), h, by simp [huv]⟩
  · exact ⟨(u, v), h, by simp [huv]⟩

theorem le_foldr_max {l : List ℕ} {x : ℕ} (h : x ∈ l) :
    x ≤ l.foldr max 0 := by
  induction l with
  | nil => simp at h
  | cons y ys ih =>
      rcases List.mem_cons.mp h with h1 | h1
      · subst h1; exact le_max_left _ _
      · exact le_trans (ih h1) (le_max_right _ _)

theorem degree_le_maxDeg {G : Graph V} {v : V} (h : v ∈ G.nodes) :
    G.degree v ≤ maxDeg G :=
  le_foldr_max (List.mem_map_of_mem G.degree h)

theorem usedColors_length_le_degree (G : Graph V) (colors : List (V × ℕ))
    (node : V) : (usedColors G colors node).length ≤ G.degree node := by
  calc (usedColors G colors node).length
      ≤ ((G.neighbors node).filterMap (lookupC colors)).length :=
        (List.dedup_sublist _).length_le
    _ ≤ (G.neighbors node).length := List.length_filterMap_le _ _
    _ = G.degree node := rfl

theorem mem_usedColors {G : Graph V} {colors : List (V × ℕ)} {node m : V}
    {c : ℕ} (hm : m ∈ G.neighbors node) (hc : lookupC colors m = some c) :
    c ∈ usedColors G colors node := by
  rw [usedColors, List.mem_dedup, List.mem_filterMap]
  exact ⟨m, hm, hc⟩

theorem usedColors_mem_elim {G : Graph V} {colors : List (V × ℕ)} {node : V}
    {c : ℕ} (h : c ∈ usedColors G colors node) :
    ∃ m ∈ G.neighbors node, lookupC colors m = some c := by
  rw [usedColors, List.mem_dedup, List.mem_filterMap] at h
  exact h

/-! ## The per-step invariant -/

theorem goodState_pending_nodup {G : Graph V} {colors : List (V × ℕ)}
    {pending : List V} (hWF : G.WF) (h : GoodState G colors pending) :
    pending.Nodup :=
  ((h.perm.nodup_iff.mpr hWF.1).sublist (List.sublist_append_right _ _))

theorem goodState_keys_nodup {G : Graph V} {colors : List (V × ℕ)}
    {pending : List V} (hWF : G.WF) (h : GoodState G colors pending) :
    (keys colors).Nodup :=
  ((h.perm.nodup_iff.mpr hWF.1).sublist (List.sublist_append_left _ _))

theorem goodState_init {G : Graph V} {order : List V} (horder : order.Perm G.nodes) :
    GoodState G [] order where
  perm := by simpa [keys] using horder
  proper := by intro e _ cu cv hu; simp [lookupC] at hu
  unassigned := by intro v _; rfl
  bounded := by intro p hp; simp at hp
  contig := by intro p hp; simp at hp

/-- The heart of every claim: one first-fit assignment to a pending
vertex preserves the invariant. -/
theorem goodState_step {G : Graph V} {colors : List (V × ℕ)}
    {pending : List V} {v : V} (hWF : G.WF) (hv : v ∈ pending)
    (h : GoodState G colors pending) :
    GoodState G (assignColor G colors v) (pending.erase v) := by
  have hfresh : lookupC colors v = none := h.unassigned v hv
  have hassign : assignColor G colors v =
      colors ++ [(v, mexColor (usedColors G colors v))] := by
    rw [assignColor, dictInsert_of_lookup_none hfresh]
  set c := mexColor (usedColors G colors v) with hc
  have hvnodes : v ∈ G.nodes :=
    h.perm.mem_iff.mp (List.mem_append_right _ hv)
  have hlook2 : ∀ w, lookupC (assignColor G colors v) w =
      if lookupC colors w = none then
        (if v = w then some c else none) else lookupC colors w := by
    intro w
    rw [hassign]
    cases hw : lookupC colors w with
    | none => rw [lookupC_append_none hw]; simp [lookupC]
    | some cw => rw [lookupC_append_some hw]; simp
  refine ⟨?_, ?_, ?_, ?_, ?_⟩
  · rw [hassign, keys_append]
    have p1 : (keys colors ++ keys [(v, c)]) ++ pending.erase v
        = keys colors ++ (v :: pending.erase v) := by
      simp [keys, List.append_assoc]
    rw [p1]
    exact List.Perm.trans
      (List.Perm.append_left _ (List.perm_cons_erase hv).symm) h.perm
  · intro e he cu cv hcu hcv
    obtain ⟨h1, h2, hne⟩ := hWF.2.1 e he
    have hee : (e.1, e.2) ∈ G.edges := by rwa [Prod.mk.eta]
    rw [hassign] at hcu hcv
    cases he1 : lookupC colors e.1 with
    | some cu0 =>
        rw [lookupC_append_some he1] at hcu
        injection hcu with hcu
        subst hcu
        cases he2 : lookupC colors e.2 with
        | some cv0 =>
            rw [lookupC_append_some he2] at hcv
            injection hcv with hcv
            subst hcv
            exact h.proper e he _ _ he1 he2
        | none =>
            rw [lookupC_append_none he2, lookupC_singleton] at hcv
            split at hcv
            · injection hcv with hcv
              subst hcv
              rename_i hv2
              intro hEq
              exact mexColor_not_mem (usedColors G colors v)
                (hc ▸ hEq ▸ mem_usedColors
                  (mem_neighbors_right (hv2.symm ▸ hee)) he1)
            · exact absurd hcv (by simp)
    | none =>
        rw [lookupC_append_none he1, lookupC_singleton] at hcu
        split at hcu
        · injection hcu with hcu
          subst hcu
          rename_i hv1
          cases he2 : lookupC colors e.2 with
          | some cv0 =>
              rw [lookupC_append_some he2] at hcv
              injection hcv with hcv
              subst hcv
              intro hEq
              exact mexColor_not_mem (usedColors G colors v)
                (hc ▸ hEq.symm ▸ mem_usedColors
                  (mem_neighbors_left (hv1.symm ▸ hee)) he2)
          | none =>
              rw [lookupC_append_none he2, lookupC_singleton,
                if_neg (show v ≠ e.2 by rw [hv1]; exact hne)] at hcv
              exact absurd hcv (by simp)
        · exact absurd hcu (by simp)
  · intro w hw
    have hpnd := goodState_pending_nodup hWF h
    have hw2 := (List.Nodup.mem_erase_iff hpnd).mp hw
    rw [hlook2, if_pos (h.unassigned w hw2.2), if_neg (by
      intro hvw
      exact hw2.1 hvw.symm)]
  · intro p hp
    rw [hassign] at hp
    rcases List.mem_append.mp hp with h1 | h1
    · exact h.bounded p h1
    · simp at h1
      subst h1
      calc c ≤ (usedColors G colors v).length := mexColor_le_length _
        _ ≤ G.degree v := usedColors_length_le_degree _ _ _
        _ ≤ maxDeg G := degree_le_maxDeg hvnodes
  · intro p hp k hk
    rw [hassign] at hp
    have hext : ∀ w kc, lookupC colors w = some kc →
        lookupC (assignColor G colors v) w = some kc := by
      intro w kc hw
      rw [hassign]
      exact lookupC_append_some hw
    rcases List.mem_append.mp hp with h1 | h1
    · obtain ⟨w, hwl⟩ := h.contig p h1 k hk
      exact ⟨w, hassign ▸ hext w k hwl⟩
    · simp at h1
      subst h1
      obtain ⟨m, hm, hlm⟩ := usedColors_mem_elim (mexColor_min hk)
      exact ⟨m, hassign ▸ hext m k hlm⟩

/-! ## Trace-chain lemmas -/

theorem stepChain_extend {init : List (V × ℕ)} {steps : List (List (V × ℕ))}
    (h : StepChain init steps) :
    ∀ s ∈ steps, ∀ k c, lookupC init k = some c → lookupC s k = some c := by
  induction steps generalizing init with
  | nil => intro s hs; simp at hs
  | cons s2 rest ih =>
      intro s hs k c hk
      obtain ⟨⟨v, c2, hfresh, heq⟩, hchain⟩ := h
      have hs2 : lookupC s2 k = some c := heq ▸ lookupC_append_some hk
      rcases List.mem_cons.mp hs with h1 | h1
      · exact h1 ▸ hs2
      · exact ih hchain s h1 k c hs2

theorem stepChain_succ {init : List (V × ℕ)} {steps : List (List (V × ℕ))}
    (h : StepChain init steps) :
    ∀ i, (hi : i + 1 < steps.length) → ∃ v c,
      lookupC steps[i] v = none ∧ steps[i + 1] = steps[i] ++ [(v, c)] := by
  induction steps generalizing init with
  | nil => intro i hi; simp at hi
  | cons s rest ih =>
      intro i hi
      obtain ⟨⟨v, c, hfresh, heq⟩, hchain⟩ := h
      match i with
      | 0 =>
          cases rest with
          | nil => simp at hi
          | cons s2 rest2 =>
              obtain ⟨⟨v2, c2, hfresh2, heq2⟩, _⟩ := hchain
              exact ⟨v2, c2, hfresh2, heq2⟩
      | i + 1 =>
          have hi2 : i + 1 < rest.length := by simpa using hi
          simpa using ih hchain i hi2

theorem stepChain_mono {init : List (V × ℕ)} {steps : List (List (V × ℕ))}
    (h : StepChain init steps) :
    ∀ i j, (hi : i < steps.length) → (hj : j < steps.length) → i ≤ j →
      ∀ k c, lookupC steps[i] k = some c → lookupC steps[j] k = some c := by
  induction steps generalizing init with
  | nil => intro i j hi; simp at hi
  | cons s rest ih =>
      intro i j hi hj hij k c hk
      obtain ⟨hhead, hchain⟩ := h
      match i, j with
      | 0, 0 => exact hk
      | 0, j + 1 =>
          have hjm : j < rest.length := by simpa using hj
          have hmem : rest[j] ∈ rest := List.getElem_mem hjm
          simpa using stepChain_extend hchain rest[j] hmem k c (by simpa using hk)
      | i + 1, j + 1 =>
          have hi2 : i < rest.length := by simpa using hi
          have hj2 : j < rest.length := by simpa using hj
          simpa using ih hchain i j hi2 hj2 (by omega) k c (by simpa using hk)

theorem stepChain_keys_nodup {init : List (V × ℕ)}
    {steps : List (List (V × ℕ))} (hn : (keys init).Nodup)
    (h : StepChain init steps) : ∀ s ∈ steps, (keys s).Nodup := by
  induction steps generalizing init with
  | nil => simp
  | cons s2 rest ih =>
      intro s hs
      obtain ⟨⟨v, c, hfresh, heq⟩, hchain⟩ := h
      have hn2 : (keys s2).Nodup := by
        have hv : v ∉ keys init := lookupC_eq_none_iff.mp hfresh
        have hkeys : keys s2 = keys init ++ [v] := by
          rw [heq, keys_append]; rfl
        rw [hkeys]
        refine List.Nodup.append hn (List.nodup_singleton v) ?_
        intro a ha hav
        simp at hav
        subst hav
        exact hv ha
      rcases List.mem_cons.mp hs with h1 | h1
      · exact h1 ▸ hn2
      · exact ih hn2 hchain s h1

/-! ## Greedy-loop lemmas -/

theorem getLast?_cons_ne {α : Type} {l : List α} (a : α) (h : l ≠ []) :
    (a :: l).getLast? = l.getLast? := by
  cases l with
  | nil => exact absurd rfl h
  | cons b t => exact List.getLast?_cons_cons

theorem greedyAux_length (G : Graph V) (ord : List V)
    (colors : List (V × ℕ)) :
    (greedyAux G ord colors).length = ord.length := by
  induction ord generalizing colors with
  | nil => rfl
  | cons v rest ih => simp [greedyAux, ih]

theorem greedyAux_last (G : Graph V) {ord : List V} (colors : List (V × ℕ))
    (h : ord ≠ []) :
    (greedyAux G ord colors).getLast? =
      some (ord.foldl (assignColor G) colors) := by
  induction ord generalizing colors with
  | nil => exact absurd rfl h
  | cons v rest ih =>
      by_cases hr : rest = []
      · subst hr
        simp [greedyAux]
      · have hne : greedyAux G rest (assignColor G colors v) ≠ [] := by
          intro hh
          have hl := greedyAux_length G rest (assignColor G colors v)
          rw [hh] at hl
          exact hr (List.length_eq_zero.mp hl.symm)
        rw [greedyAux]
        rw [getLast?_cons_ne _ hne]
        exact ih _ hr

theorem foldl_assign_good {G : Graph V} {colors : List (V × ℕ)}
    {ord : List V} (hWF : G.WF) (h : GoodState G colors ord) :
    GoodState G (ord.foldl (assignColor G) colors) [] := by
  induction ord generalizing colors with
  | nil => exact h
  | cons v rest ih =>
      have step := goodState_step hWF (List.mem_cons_self v rest) h
      rw [List.erase_cons_head] at step
      exact ih step

theorem greedyAux_chain {G : Graph V} {colors : List (V × ℕ)} {ord : List V}
    (hWF : G.WF) (h : GoodState G colors ord) :
    StepChain colors (greedyAux G ord colors) := by
  induction ord generalizing colors with
  | nil => trivial
  | cons v rest ih =>
      have hfresh : lookupC colors v = none :=
        h.unassigned v (List.mem_cons_self v rest)
      refine ⟨⟨v, mexColor (usedColors G colors v), hfresh,
        dictInsert_of_lookup_none hfresh⟩, ?_⟩
      have step := goodState_step hWF (List.mem_cons_self v rest) h
      rw [List.erase_cons_head] at step
      exact ih step

/-! ## Lexicographic maximum lemmas (DSATUR selection) -/

theorem lexLt_irrefl (p : ℕ × ℕ) : ¬ lexLt p p := by
  unfold lexLt; omega

theorem lexLt_trans {p q r : ℕ × ℕ} (h1 : lexLt p q) (h2 : lexLt q r) :
    lexLt p r := by
  unfold lexLt at *; omega

theorem lexLt_resolve {p q : ℕ × ℕ} (h : ¬ lexLt p q) :
    lexLt q p ∨ p = q := by
  obtain ⟨a, b⟩ := p
  obtain ⟨c, d⟩ := q
  unfold lexLt at *
  simp only [Prod.mk.injEq]
  omega

theorem pyMax_mem (key : V → ℕ × ℕ) (x : V) (xs : List V) :
    pyMax key x xs ∈ x :: xs := by
  induction xs generalizing x with
  | nil => simp [pyMax]
  | cons z zs ih =>
      have heq : pyMax key x (z :: zs) =
          pyMax key (if lexLt (key x) (key z) then z else x) zs := rfl
      rw [heq]
      rcases List.mem_cons.mp (ih (if lexLt (key x) (key z) then z else x))
        with h1 | h1
      · rw [h1]
        split
        · exact List.mem_cons_of_mem _ (List.mem_cons_self z zs)
        · exact List.mem_cons_self x (z :: zs)
      · exact List.mem_cons_of_mem _ (List.mem_cons_of_mem _ h1)

theorem pyMax_maximal (key : V → ℕ × ℕ) (x : V) (xs : List V) :
    ∀ y ∈ x :: xs, ¬ lexLt (key (pyMax key x xs)) (key y) := by
  induction xs generalizing x with
  | nil =>
      intro y hy
      simp at hy
      subst hy
      exact lexLt_irrefl _
  | cons z zs ih =>
      intro y hy
      have heq : pyMax key x (z :: zs) =
          pyMax key (if lexLt (key x) (key z) then z else x) zs := rfl
      rw [heq]
      by_cases hxz : lexLt (key x) (key z)
      · rw [if_pos hxz]
        rcases List.mem_cons.mp hy with h1 | h1
        · subst h1
          intro hcon
          exact ih z z (List.mem_cons_self z zs) (lexLt_trans hcon hxz)
        · exact ih z y h1
      · rw [if_neg hxz]
        rcases List.mem_cons.mp hy with h1 | h1
        · subst h1
          exact ih y y (List.mem_cons_self y zs)
        · rcases List.mem_cons.mp h1 with h2 | h2
          · subst h2
            intro hcon
            rcases lexLt_resolve (ih x x (List.mem_cons_self x zs)) with hlt | heq2
            · exact hxz (lexLt_trans hlt hcon)
            · rw [← heq2] at hxz
              exact hxz hcon
          · exact ih x y (List.mem_cons_of_mem _ h2)

/-! ## DSATUR-loop lemmas -/

theorem dsaturAux_length (G : Graph V) :
    ∀ fuel (colors sat : List (V × ℕ)) (pending : List V),
      fuel = pending.length →
      (dsaturAux G fuel colors sat pending).length = pending.length := by
  intro fuel
  induction fuel with
  | zero =>
      intro colors sat pending h
      simp [dsaturAux, ← h]
  | succ f ih =>
      intro colors sat pending h
      cases pending with
      | nil => simp at h
      | cons u us =>
          rw [dsaturAux]
          have hmem := pyMax_mem (satDegKey G sat) u us
          have herase :
              ((u :: us).erase (pyMax (satDegKey G sat) u us)).length
                = us.length := by
            rw [List.length_erase_of_mem hmem]
            simp
          have hf : f = us.length := by simp at h; omega
          simp only [List.length_cons]
          rw [ih _ _ _ (by rw [herase]; exact hf), herase]

theorem dsaturAux_chain {G : Graph V} (hWF : G.WF) :
    ∀ fuel (colors sat : List (V × ℕ)) (pending : List V),
      fuel = pending.length → GoodState G colors pending →
      StepChain colors (dsaturAux G fuel colors sat pending) := by
  intro fuel
  induction fuel with
  | zero =>
      intro colors sat pending h hg
      simp only [dsaturAux]
      trivial
  | succ f ih =>
      intro colors sat pending h hg
      cases pending with
      | nil => simp at h
      | cons u us =>
          rw [dsaturAux]
          have hmem : pyMax (satDegKey G sat) u us ∈ u :: us :=
            pyMax_mem _ _ _
          have hfresh := hg.unassigned _ hmem
          refine ⟨⟨pyMax (satDegKey G sat) u us,
            mexColor (usedColors G colors (pyMax (satDegKey G sat) u us)),
            hfresh, dictInsert_of_lookup_none hfresh⟩, ?_⟩
          have step := goodState_step hWF hmem hg
          refine ih _ _ _ ?_ step
          rw [List.length_erase_of_mem hmem]
          simp at h ⊢
          omega

theorem dsaturAux_last {G : Graph V} (hWF : G.WF) :
    ∀ fuel (colors sat : List (V × ℕ)) (pending : List V),
      fuel = pending.length → pending ≠ [] → GoodState G colors pending →
      ∃ final, (dsaturAux G fuel colors sat pending).getLast? = some final ∧
        GoodState G final [] := by
  intro fuel
  induction fuel with
  | zero =>
      intro colors sat pending h hne hg
      exact absurd (List.length_eq_zero.mp h.symm) hne
  | succ f ih =>
      intro colors sat pending h hne hg
      cases pending with
      | nil => exact absurd rfl hne
      | cons u us =>
          rw [dsaturAux]
          have hmem : pyMax (satDegKey G sat) u us ∈ u :: us :=
            pyMax_mem _ _ _
          have step := goodState_step hWF hmem hg
          have hlen : f = ((u :: us).erase (pyMax (satDegKey G sat) u us)).length := by
            rw [List.length_erase_of_mem hmem]
            simp at h ⊢
            omega
          by_cases hpe : (u :: us).erase (pyMax (satDegKey G sat) u us) = []
          · refine ⟨assignColor G colors (pyMax (satDegKey G sat) u us), ?_, ?_⟩
            · have hf : f = 0 := by rw [hlen, hpe]; rfl
              subst hf
              simp [dsaturAux]
            · exact hpe ▸ step
          · obtain ⟨final, hlast, hgood⟩ :=
              ih (assignColor G colors (pyMax (satDegKey G sat) u us))
                (updateSat G (assignColor G colors (pyMax (satDegKey G sat) u us))
                  (u :: us) sat (pyMax (satDegKey G sat) u us))
                ((u :: us).erase (pyMax (satDegKey G sat) u us)) hlen hpe step
            refine ⟨final, ?_, hgood⟩
            rw [getLast?_cons_ne _ ?_, hlast]
            intro hh
            have hl := dsaturAux_length G f
              (assignColor G colors (pyMax (satDegKey G sat) u us))
              (updateSat G (assignColor G colors (pyMax (satDegKey G sat) u us))
                (u :: us) sat (pyMax (satDegKey G sat) u us))
              ((u :: us).erase (pyMax (satDegKey G sat) u us)) hlen
            rw [hh] at hl
            exact hpe (List.length_eq_zero.mp hl.symm)

/-! ## Facts about a completed run -/

theorem goodState_final_keys {G : Graph V} {final : List (V × ℕ)}
    (h : GoodState G final []) : (keys final).Perm G.nodes := by
  have := h.perm
  simpa using this

theorem goodState_final_lookup {G : Graph V} {final : List (V × ℕ)}
    (h : GoodState G final []) {v : V} (hv : v ∈ G.nodes) :
    ∃ c, lookupC final v = some c :=
  lookupC_isSome_of_mem_keys ((goodState_final_keys h).mem_iff.mpr hv)

theorem goodState_final_proper_ne {G : Graph V} {final : List (V × ℕ)}
    (hWF : G.WF) (h : GoodState G final []) {e : V × V} (he : e ∈ G.edges) :
    lookupC final e.1 ≠ lookupC final e.2 := by
  obtain ⟨h1, h2, hne⟩ := hWF.2.1 e he
  obtain ⟨cu, hcu⟩ := goodState_final_lookup h h1
  obtain ⟨cv, hcv⟩ := goodState_final_lookup h h2
  rw [hcu, hcv]
  intro hEq
  injection hEq with hEq
  exact h.proper e he cu cv hcu hcv hEq

theorem count_eq_one_of_nodup_mem {α : Type} [BEq α] [LawfulBEq α]
    {l : List α} {a : α} (hn : l.Nodup) (ha : a ∈ l) : l.count a = 1 := by
  induction l with
  | nil => simp at ha
  | cons x xs ih =>
      obtain ⟨hx, hxs⟩ := List.nodup_cons.mp hn
      rcases List.mem_cons.mp ha with h1 | h1
      · subst h1
        rw [List.count_cons_self]
        have hz : xs.count a = 0 := List.count_eq_zero.mpr hx
        omega
      · rw [List.count_cons_of_ne, ih hxs h1]
        intro hax
        rw [hax] at h1
        exact hx h1

theorem goodState_final_count [BEq V] [LawfulBEq V] {G : Graph V}
    {final : List (V × ℕ)} (hWF : G.WF) (h : GoodState G final [])
    {v : V} (hv : v ∈ G.nodes) : (keys final).count v = 1 := by
  have hnd : (keys final).Nodup := by
    have hp := h.perm.nodup_iff.mpr hWF.1
    simpa using hp
  exact count_eq_one_of_nodup_mem hnd ((goodState_final_keys h).mem_iff.mpr hv)

theorem goodState_final_distinct_le {G : Graph V} {final : List (V × ℕ)}
    (h : GoodState G final []) :
    (final.map Prod.snd).dedup.length ≤ maxDeg G + 1 := by
  have hsub : (final.map Prod.snd).toFinset ⊆ Finset.range (maxDeg G + 1) := by
    intro c hcc
    rw [List.mem_toFinset, List.mem_map] at hcc
    obtain ⟨p, hp, rfl⟩ := hcc
    rw [Finset.mem_range]
    exact Nat.lt_succ_of_le (h.bounded p hp)
  have hcard := Finset.card_le_card hsub
  rwa [List.card_toFinset, Finset.card_range] at hcard

theorem goodState_final_contig {G : Graph V} {final : List (V × ℕ)}
    (h : GoodState G final []) {v : V} {c : ℕ}
    (hv : lookupC final v = some c) {k : ℕ} (hk : k < c) :
    ∃ w, lookupC final w = some k :=
  h.contig (v, c) (lookupC_mem hv) k hk

/-! ## Per-strategy completed runs -/

theorem wpOrder_perm (G : Graph V) : (wpOrder G).Perm G.nodes :=
  List.mergeSort_perm G.nodes _

theorem greedy_final_good {G : Graph V} (hWF : G.WF) (hne : G.nodes ≠ []) :
    ∃ final, (greedy_steps G).getLast? = some final ∧ GoodState G final [] :=
  ⟨G.nodes.foldl (assignColor G) [], greedyAux_last G [] hne,
    foldl_assign_good hWF (goodState_init (List.Perm.refl _))⟩

theorem wp_final_good {G : Graph V} (hWF : G.WF) (hne : G.nodes ≠ []) :
    ∃ final, (wp_steps G).getLast? = some final ∧ GoodState G final [] := by
  have hp := wpOrder_perm G
  have hone : wpOrder G ≠ [] := by
    intro hh
    rw [hh] at hp
    exact hne (hp.symm.eq_nil)
  exact ⟨(wpOrder G).foldl (assignColor G) [], greedyAux_last G [] hone,
    foldl_assign_good hWF (goodState_init hp)⟩

theorem dsatur_final_good {G : Graph V} (hWF : G.WF) (hne : G.nodes ≠ []) :
    ∃ final, (dsatur_steps G).getLast? = some final ∧ GoodState G final [] :=
  dsaturAux_last hWF G.nodes.length [] (G.nodes.map (fun n => (n, 0)))
    G.nodes rfl hne (goodState_init (List.Perm.refl _))

theorem greedy_chain {G : Graph V} (hWF : G.WF) :
    StepChain [] (greedy_steps G) :=
  greedyAux_chain hWF (goodState_init (List.Perm.refl _))

theorem wp_chain {G : Graph V} (hWF : G.WF) :
    StepChain [] (wp_steps G) :=
  greedyAux_chain hWF (goodState_init (wpOrder_perm G))

theorem dsatur_chain {G : Graph V} (hWF : G.WF) :
    StepChain [] (dsatur_steps G) :=
  dsaturAux_chain hWF G.nodes.length [] (G.nodes.map (fun n => (n, 0)))
    G.nodes rfl (goodState_init (List.Perm.refl _))

/-! ## Line-graph lemmas -/

theorem listPairs_mem {α : Type} {l : List α} {p : α × α}
    (h : p ∈ listPairs l) : p.1 ∈ l ∧ p.2 ∈ l := by
  induction l with
  | nil => simp [listPairs] at h
  | cons x xs ih =>
      rw [listPairs] at h
      rcases List.mem_append.mp h with h1 | h1
      · rw [List.mem_map] at h1
        obtain ⟨y, hy, rfl⟩ := h1
        exact ⟨List.mem_cons_self _ _, List.mem_cons_of_mem _ hy⟩
      · obtain ⟨ha, hb⟩ := ih h1
        exact ⟨List.mem_cons_of_mem _ ha, List.mem_cons_of_mem _ hb⟩

theorem listPairs_rel {α : Type} {R : α → α → Prop} {l : List α}
    (h : l.Pairwise R) : ∀ p ∈ listPairs l, R p.1 p.2 := by
  induction l with
  | nil => simp [listPairs]
  | cons x xs ih =>
      intro p hp
      rw [listPairs] at hp
      rcases List.mem_append.mp hp with h1 | h1
      · rw [List.mem_map] at h1
        obtain ⟨y, hy, rfl⟩ := h1
        exact (List.pairwise_cons.mp h).1 y hy
      · exact ih (List.pairwise_cons.mp h).2 p h1

theorem mem_listPairs_or {α : Type} {l : List α} {a b : α}
    (ha : a ∈ l) (hb : b ∈ l) (hab : a ≠ b) :
    (a, b) ∈ listPairs l ∨ (b, a) ∈ listPairs l := by
  induction l with
  | nil => simp at ha
  | cons x xs ih =>
      rw [listPairs]
      rcases List.mem_cons.mp ha with h1 | h1
      · have hbx : b ∈ xs := by
          rcases List.mem_cons.mp hb with h2 | h2
          · exact absurd (h1.trans h2.symm) hab
          · exact h2
        left
        refine List.mem_append_left _ ?_
        rw [h1]
        exact List.mem_map_of_mem _ hbx
      · rcases List.mem_cons.mp hb with h2 | h2
        · right
          refine List.mem_append_left _ ?_
          rw [h2]
          exact List.mem_map_of_mem _ h1
        · rcases ih h1 h2 with h3 | h3
          · exact Or.inl (List.mem_append_right _ h3)
          · exact Or.inr (List.mem_append_right _ h3)

theorem listPairs_pairwise_notSame {α : Type} {l : List α} (h : l.Nodup) :
    (listPairs l).Pairwise (fun p q : α × α => ¬ sameEdge p q) := by
  induction l with
  | nil => simp [listPairs]
  | cons x xs ih =>
      rw [listPairs, List.pairwise_append]
      obtain ⟨hx, hxs⟩ := List.nodup_cons.mp h
      refine ⟨?_, ih hxs, ?_⟩
      · rw [List.pairwise_map]
        refine hxs.imp_of_mem ?_
        intro b d hbmem hdmem hbd hsame
        simp only [sameEdge] at hsame
        rcases hsame with ⟨_, h2⟩ | ⟨h1, _⟩
        · exact hbd h2
        · exact hx (h1.symm ▸ hdmem)
      · intro E hE F hF
        rw [List.mem_map] at hE
        obtain ⟨b, hb, rfl⟩ := hE
        obtain ⟨hc, hd⟩ := listPairs_mem hF
        intro hsame
        simp only [sameEdge] at hsame
        rcases hsame with ⟨h1, _⟩ | ⟨h1, _⟩
        · exact hx (h1.symm ▸ hc)
        · exact hx (h1.symm ▸ hd)

theorem sharesEndpoint_symm {e f : V × V} (h : sharesEndpoint e f) :
    sharesEndpoint f e := by
  unfold sharesEndpoint at *
  tauto

theorem lineGraph_WF {G : Graph V} (hWF : G.WF) : (lineGraph G).WF := by
  obtain ⟨hn, he, hp⟩ := hWF
  have hedges_nodup : G.edges.Nodup := by
    refine hp.imp ?_
    intro e f hef heq
    exact hef (heq ▸ Or.inl ⟨rfl, rfl⟩)
  refine ⟨hedges_nodup, ?_, ?_⟩
  · intro E hE
    rw [lineGraph] at hE
    simp only [List.mem_filter] at hE
    obtain ⟨hEp, _⟩ := hE
    obtain ⟨h1, h2⟩ := listPairs_mem hEp
    exact ⟨h1, h2, listPairs_rel hedges_nodup E hEp⟩
  · exact (listPairs_pairwise_notSame hedges_nodup).sublist
      (List.filter_sublist _)

theorem lineGraph_adj {G : Graph V} {e f : V × V}
    (he : e ∈ G.edges) (hf : f ∈ G.edges) (hef : e ≠ f)
    (hshare : sharesEndpoint e f) :
    (e, f) ∈ (lineGraph G).edges ∨ (f, e) ∈ (lineGraph G).edges := by
  rcases mem_listPairs_or he hf hef with h1 | h1
  · left
    rw [lineGraph]
    simp only [List.mem_filter]
    exact ⟨h1, by simpa using hshare⟩
  · right
    rw [lineGraph]
    simp only [List.mem_filter]
    exact ⟨h1, by simpa using sharesEndpoint_symm hshare⟩

/-! ## The edge-snapshot conversion is the identity -/

theorem convertFold_eq {s : List (V × ℕ)} :
    ∀ (acc full : List (V × ℕ)),
      (keys (acc ++ s)).Nodup →
      (∀ kv ∈ s, lookupC full kv.1 = some kv.2) →
      s.foldl (fun a kv => dictInsert a kv.1 (lookupD full kv.1)) acc
        = acc ++ s := by
  induction s with
  | nil => intro acc full _ _; simp
  | cons kv rest ih =>
      intro acc full hnd hfull
      rw [List.foldl_cons]
      have hval : lookupD full kv.1 = kv.2 := by
        rw [lookupD, hfull kv (List.mem_cons_self _ _)]
        rfl
      have hfresh : lookupC acc kv.1 = none := by
        rw [lookupC_eq_none_iff]
        intro hmem
        rw [keys_append] at hnd
        exact List.disjoint_of_nodup_append hnd hmem
          (by simp [keys])
      rw [hval, dictInsert_of_lookup_none hfresh, Prod.mk.eta]
      have hre : (acc ++ [kv]) ++ rest = acc ++ kv :: rest := by simp
      rw [ih (acc ++ [kv]) full (by rw [hre]; exact hnd)
        (fun kv2 hkv2 => hfull kv2 (List.mem_cons_of_mem _ hkv2)), hre]

theorem convertDict_eq_self {W : Type} [DecidableEq W]
    {s : List ((W × W) × ℕ)} (h : (keys s).Nodup) :
    convertDict s = s := by
  rw [convertDict]
  refine convertFold_eq [] s (by simpa using h) ?_
  intro kv hkv
  have : (kv.1, kv.2) ∈ s := by rwa [Prod.mk.eta]
  exact lookupC_of_mem_nodup h this

theorem map_convert_eq {W : Type} [DecidableEq W]
    {steps : List (List ((W × W) × ℕ))}
    (h : ∀ s ∈ steps, convertDict s = s) :
    steps.map convertDict = steps := by
  induction steps with
  | nil => rfl
  | cons s rest ih =>
      rw [List.map_cons, h s (List.mem_cons_self _ _),
        ih (fun t ht => h t (List.mem_cons_of_mem _ ht))]

theorem edge_coloring_steps_eq {G : Graph V} (hWF : G.WF) :
    edge_coloring_steps G = greedy_steps (lineGraph G) := by
  rw [edge_coloring_steps]
  refine map_convert_eq ?_
  intro s hs
  exact convertDict_eq_self
    (stepChain_keys_nodup (by simp [keys]) (greedy_chain (lineGraph_WF hWF))
      s hs)

/-! ## Saturation-update lemmas -/

theorem neighbors_nodup (G : Graph V) (v : V) : (G.neighbors v).Nodup :=
  List.nodup_dedup _

theorem updateFold_untouched {G : Graph V} {colors : List (V × ℕ)}
    {uncolored : List V} {x : V} :
    ∀ (ns : List V) (sat : List (V × ℕ)), x ∉ ns ∨ x ∉ uncolored →
      lookupC (ns.foldl (fun s neigh =>
        if neigh ∈ uncolored then
          dictInsert s neigh (recomputeSat G colors neigh) else s) sat) x
      = lookupC sat x := by
  intro ns
  induction ns with
  | nil => intro sat _; rfl
  | cons n rest ih =>
      intro sat hx
      rw [List.foldl_cons]
      have hnx : n ∈ uncolored → n ≠ x := by
        intro hnu hnxEq
        rcases hx with h1 | h1
        · exact h1 (hnxEq ▸ List.mem_cons_self _ _)
        · exact h1 (hnxEq ▸ hnu)
      have hx2 : x ∉ rest ∨ x ∉ uncolored := by
        rcases hx with h1 | h1
        · exact Or.inl (fun hh => h1 (List.mem_cons_of_mem _ hh))
        · exact Or.inr h1
      rw [ih _ hx2]
      split
      · exact lookupC_dictInsert_ne _ (hnx (by assumption))
      · rfl

theorem updateFold_hit {G : Graph V} {colors : List (V × ℕ)}
    {uncolored : List V} {x : V} (hxu : x ∈ uncolored) :
    ∀ (ns : List V) (sat : List (V × ℕ)), ns.Nodup → x ∈ ns →
      lookupC (ns.foldl (fun s neigh =>
        if neigh ∈ uncolored then
          dictInsert s neigh (recomputeSat G colors neigh) else s) sat) x
      = some (recomputeSat G colors x) := by
  intro ns
  induction ns with
  | nil => intro sat _ hx; simp at hx
  | cons n rest ih =>
      intro sat hnd hx
      obtain ⟨hn, hrest⟩ := List.nodup_cons.mp hnd
      rw [List.foldl_cons]
      rcases List.mem_cons.mp hx with h1 | h1
      · have hxr : x ∉ rest := h1 ▸ hn
        rw [updateFold_untouched rest _ (Or.inl hxr)]
        rw [if_pos (h1 ▸ hxu)]
        rw [← h1]
        exact lookupC_dictInsert_self _ _ _
      · exact ih _ hrest h1

theorem updateSat_untouched {G : Graph V} {colors sat : List (V × ℕ)}
    {uncolored : List V} {node x : V}
    (h : x ∉ G.neighbors node ∨ x ∉ uncolored) :
    lookupC (updateSat G colors uncolored sat node) x = lookupC sat x :=
  updateFold_untouched _ sat h

theorem updateSat_hit {G : Graph V} {colors sat : List (V × ℕ)}
    {uncolored : List V} {node x : V}
    (hxn : x ∈ G.neighbors node) (hxu : x ∈ uncolored) :
    lookupC (updateSat G colors uncolored sat node) x
      = some (recomputeSat G colors x) :=
  updateFold_hit hxu _ sat (neighbors_nodup G node) hxn

/-! ## Claim theorems -/

/-- C1: for every well-formed input graph and each of the three vertex
strategies (FirstFit/greedy_steps, DegreeOrdered/wp_steps,
Saturation/dsatur_steps), the final snapshot of the returned trace is a
proper coloring: the endpoints of every edge receive different colors. -/
theorem claim1_properness (G : Graph V) (hWF : G.WF) :
    ∀ e ∈ G.edges,
      lookupC (lastColoring (greedy_steps G)) e.1
        ≠ lookupC (lastColoring (greedy_steps G)) e.2 ∧
      lookupC (lastColoring (wp_steps G)) e.1
        ≠ lookupC (lastColoring (wp_steps G)) e.2 ∧
      lookupC (lastColoring (dsatur_steps G)) e.1
        ≠ lookupC (lastColoring (dsatur_steps G)) e.2 := by
  intro e he
  have hne : G.nodes ≠ [] := List.ne_nil_of_mem (hWF.2.1 e he).1
  obtain ⟨f1, hl1, hg1⟩ := greedy_final_good hWF hne
  obtain ⟨f2, hl2, hg2⟩ := wp_final_good hWF hne
  obtain ⟨f3, hl3, hg3⟩ := dsatur_final_good hWF hne
  simp only [lastColoring, hl1, hl2, hl3, Option.getD_some]
  exact ⟨goodState_final_proper_ne hWF hg1 he,
    goodState_final_proper_ne hWF hg2 he,
    goodState_final_proper_ne hWF hg3 he⟩

theorem claim1_witness :
    lookupC (lastColoring (greedy_steps
        (Graph.mk [0, 1, 2, 3] [(0, 1), (1, 2), (2, 3), (3, 0)]))) 0
      ≠ lookupC (lastColoring (greedy_steps
        (Graph.mk [0, 1, 2, 3] [(0, 1), (1, 2), (2, 3), (3, 0)]))) 1 :=
  (claim1_properness (Graph.mk [0, 1, 2, 3] [(0, 1), (1, 2), (2, 3), (3, 0)])
    (by decide) (0, 1) (by decide)).1

/-- C2 counterexample: with the Saturation strategy requested on the
path graph 0-1-2-3 in edge mode, the run's output differs from the
claimed behavior of coloring the line graph with the requested
strategy; the code always uses greedy on the line graph instead. -/
theorem claim2_counterexample :
    edgeRun Algo.dsatur (Graph.mk [0, 1, 2, 3] [(0, 1), (1, 2), (2, 3)])
      ≠ edgeRunPerClaim Algo.dsatur
          (Graph.mk [0, 1, 2, 3] [(0, 1), (1, 2), (2, 3)]) := by
  decide

/-- C2 (amended): the edge-coloring operation builds the line graph and
always invokes the FirstFit/greedy engine on it, ignoring the requested
strategy; the snapshot conversion adds no further transformation, so
the returned trace is exactly the greedy trace of the line graph keyed
by source edges. -/
theorem claim2_amended {G : Graph V} (algo : Algo) (hWF : G.WF) :
    edgeRun algo G = greedy_steps (lineGraph G) :=
  edge_coloring_steps_eq hWF

theorem claim2_witness :
    edgeRun Algo.dsatur (Graph.mk [0, 1, 2, 3] [(0, 1), (1, 2), (2, 3)])
      = greedy_steps
          (lineGraph (Graph.mk [0, 1, 2, 3] [(0, 1), (1, 2), (2, 3)])) :=
  claim2_amended Algo.dsatur (by decide)

/-- C3 counterexample: running a coloring on the empty graph yields an
empty trace, and the summary `len(set(steps[-1].values()))` fails on it
(`none` models the IndexError raised by `steps[-1]`) instead of
returning color count 0. -/
theorem claim3_counterexample :
    greedy_steps (Graph.mk ([] : List ℕ) []) = [] ∧
    nbColors (greedy_steps (Graph.mk ([] : List ℕ) [])) ≠ some 0 :=
  ⟨rfl, by decide⟩

/-- C3 (amended): the summary returns the number of distinct color
values of the last trace entry when the trace is non-empty, but on an
empty trace it fails (IndexError from `steps[-1]`) rather than
returning 0; an empty graph yields an empty trace under all three
strategies, so the summary fails there. -/
theorem claim3_amended :
    (∀ (steps : List (List (ℕ × ℕ))) s, steps.getLast? = some s →
        nbColors steps = some ((s.map Prod.snd).dedup.length)) ∧
    nbColors ([] : List (List (ℕ × ℕ))) = none ∧
    (∀ G : Graph ℕ, G.nodes = [] →
        greedy_steps G = [] ∧ wp_steps G = [] ∧ dsatur_steps G = []) := by
  refine ⟨?_, rfl, ?_⟩
  · intro steps s h
    rw [nbColors, h]
    rfl
  · intro G h
    refine ⟨?_, ?_, ?_⟩
    · rw [greedy_steps, h]
      rfl
    · rw [wp_steps, wpOrder, h]
      simp [greedyAux]
    · rw [dsatur_steps, h]
      rfl

theorem claim3_witness :
    nbColors [[((0 : ℕ), (5 : ℕ))]]
      = some (([((0 : ℕ), (5 : ℕ))].map Prod.snd).dedup.length) ∧
    wp_steps (Graph.mk ([] : List ℕ) []) = [] :=
  ⟨claim3_amended.1 [[(0, 5)]] [(0, 5)] rfl,
   (claim3_amended.2.2 (Graph.mk [] []) rfl).2.1⟩

/-- C4: in the final edge coloring produced by the edge-coloring
operation, any two distinct edges of the source graph that share an
endpoint receive different colors. -/
theorem claim4_edge_properness {G : Graph V} (hWF : G.WF) :
    ∀ e ∈ G.edges, ∀ f ∈ G.edges, e ≠ f → sharesEndpoint e f →
      lookupC (lastColoring (edge_coloring_steps G)) e
        ≠ lookupC (lastColoring (edge_coloring_steps G)) f := by
  intro e he f hf hef hshare
  have hLG := lineGraph_WF hWF
  rw [edge_coloring_steps_eq hWF]
  have hne : (lineGraph G).nodes ≠ [] :=
    List.ne_nil_of_mem (show e ∈ (lineGraph G).nodes from he)
  obtain ⟨final, hlast, hgood⟩ := greedy_final_good hLG hne
  simp only [lastColoring, hlast, Option.getD_some]
  rcases lineGraph_adj he hf hef hshare with h1 | h1
  · exact goodState_final_proper_ne hLG hgood h1
  · exact (goodState_final_proper_ne hLG hgood h1).symm

theorem claim4_witness :
    lookupC (lastColoring (edge_coloring_steps
        (Graph.mk [0, 1, 2, 3] [(0, 1), (1, 2), (2, 3)]))) (0, 1)
      ≠ lookupC (lastColoring (edge_coloring_steps
        (Graph.mk [0, 1, 2, 3] [(0, 1), (1, 2), (2, 3)]))) (1, 2) :=
  claim4_edge_properness (by decide) (0, 1) (by decide) (1, 2) (by decide)
    (by decide) (by decide)

/-- C5: the trace has exactly one entry per colored element — length
|V| for each vertex strategy and |E| for edge coloring — and in the
final snapshot every vertex (resp. edge) appears with exactly one
assigned color. -/
theorem claim5_trace_complete (G : Graph V) (hWF : G.WF) :
    (greedy_steps G).length = G.nodes.length ∧
    (wp_steps G).length = G.nodes.length ∧
    (dsatur_steps G).length = G.nodes.length ∧
    (edge_coloring_steps G).length = G.edges.length ∧
    (∀ v ∈ G.nodes, (keys (lastColoring (greedy_steps G))).count v = 1) ∧
    (∀ v ∈ G.nodes, (keys (lastColoring (wp_steps G))).count v = 1) ∧
    (∀ v ∈ G.nodes, (keys (lastColoring (dsatur_steps G))).count v = 1) ∧
    (∀ e ∈ G.edges,
      (keys (lastColoring (edge_coloring_steps G))).count e = 1) := by
  have hLG := lineGraph_WF hWF
  refine ⟨greedyAux_length G _ _, ?_, dsaturAux_length G _ _ _ _ rfl,
    ?_, ?_, ?_, ?_, ?_⟩
  · rw [wp_steps, greedyAux_length]
    exact (wpOrder_perm G).length_eq
  · rw [edge_coloring_steps, List.length_map]
    exact greedyAux_length _ _ _
  · intro v hv
    obtain ⟨f1, hl1, hg1⟩ := greedy_final_good hWF (List.ne_nil_of_mem hv)
    simp only [lastColoring, hl1, Option.getD_some]
    exact goodState_final_count hWF hg1 hv
  · intro v hv
    obtain ⟨f2, hl2, hg2⟩ := wp_final_good hWF (List.ne_nil_of_mem hv)
    simp only [lastColoring, hl2, Option.getD_some]
    exact goodState_final_count hWF hg2 hv
  · intro v hv
    obtain ⟨f3, hl3, hg3⟩ := dsatur_final_good hWF (List.ne_nil_of_mem hv)
    simp only [lastColoring, hl3, Option.getD_some]
    exact goodState_final_count hWF hg3 hv
  · intro e he
    rw [edge_coloring_steps_eq hWF]
    obtain ⟨f4, hl4, hg4⟩ := greedy_final_good hLG
      (List.ne_nil_of_mem (show e ∈ (lineGraph G).nodes from he))
    simp only [lastColoring, hl4, Option.getD_some]
    exact goodState_final_count hLG hg4 he

theorem claim5_witness :
    (greedy_steps (Graph.mk [0, 1, 2, 3] [(0, 1), (1, 2), (2, 3), (3, 0)])).length
      = ([0, 1, 2, 3] : List ℕ).length ∧
    (keys (lastColoring (dsatur_steps
        (Graph.mk [0, 1, 2, 3] [(0, 1), (1, 2), (2, 3), (3, 0)])))).count 2
      = 1 :=
  ⟨(claim5_trace_complete
      (Graph.mk [0, 1, 2, 3] [(0, 1), (1, 2), (2, 3), (3, 0)]) (by decide)).1,
   (claim5_trace_complete
      (Graph.mk [0, 1, 2, 3] [(0, 1), (1, 2), (2, 3), (3, 0)])
      (by decide)).2.2.2.2.2.2.1 2 (by decide)⟩

/-- C6: for every well-formed input graph, each of the three vertex
strategies uses at most maxDegree + 1 distinct colors in the final
coloring. -/
theorem claim6_color_bound (G : Graph V) (hWF : G.WF) :
    ((lastColoring (greedy_steps G)).map Prod.snd).dedup.length
      ≤ maxDeg G + 1 ∧
    ((lastColoring (wp_steps G)).map Prod.snd).dedup.length
      ≤ maxDeg G + 1 ∧
    ((lastColoring (dsatur_steps G)).map Prod.snd).dedup.length
      ≤ maxDeg G + 1 := by
  by_cases hne : G.nodes = []
  · have h1 : greedy_steps G = [] := by rw [greedy_steps, hne]; rfl
    have h2 : wp_steps G = [] := by rw [wp_steps, wpOrder, hne]; simp [greedyAux]
    have h3 : dsatur_steps G = [] := by rw [dsatur_steps, hne]; rfl
    rw [h1, h2, h3]
    simp [lastColoring]
  · obtain ⟨f1, hl1, hg1⟩ := greedy_final_good hWF hne
    obtain ⟨f2, hl2, hg2⟩ := wp_final_good hWF hne
    obtain ⟨f3, hl3, hg3⟩ := dsatur_final_good hWF hne
    simp only [lastColoring, hl1, hl2, hl3, Option.getD_some]
    exact ⟨goodState_final_distinct_le hg1, goodState_final_distinct_le hg2,
      goodState_final_distinct_le hg3⟩

theorem claim6_witness :
    ((lastColoring (greedy_steps
        (Graph.mk [0, 1, 2] [(0, 1), (1, 2), (0, 2)]))).map Prod.snd).dedup.length
      ≤ maxDeg (Graph.mk [0, 1, 2] [(0, 1), (1, 2), (0, 2)]) + 1 :=
  (claim6_color_bound (Graph.mk [0, 1, 2] [(0, 1), (1, 2), (0, 2)])
    (by decide)).1

/-- C7: for every non-empty well-formed input graph and each of the
three vertex strategies, the set of used colors in the final coloring
is a gap-free initial segment of ℕ: below any used color, every color
is used by some vertex. -/
theorem claim7_contiguous (G : Graph V) (hWF : G.WF) (hne : G.nodes ≠ []) :
    (∀ v c, lookupC (lastColoring (greedy_steps G)) v = some c →
        ∀ k < c, ∃ w, lookupC (lastColoring (greedy_steps G)) w = some k) ∧
    (∀ v c, lookupC (lastColoring (wp_steps G)) v = some c →
        ∀ k < c, ∃ w, lookupC (lastColoring (wp_steps G)) w = some k) ∧
    (∀ v c, lookupC (lastColoring (dsatur_steps G)) v = some c →
        ∀ k < c, ∃ w, lookupC (lastColoring (dsatur_steps G)) w = some k) := by
  obtain ⟨f1, hl1, hg1⟩ := greedy_final_good hWF hne
  obtain ⟨f2, hl2, hg2⟩ := wp_final_good hWF hne
  obtain ⟨f3, hl3, hg3⟩ := dsatur_final_good hWF hne
  simp only [lastColoring, hl1, hl2, hl3, Option.getD_some]
  exact ⟨fun v c hv k hk => goodState_final_contig hg1 hv hk,
    fun v c hv k hk => goodState_final_contig hg2 hv hk,
    fun v c hv k hk => goodState_final_contig hg3 hv hk⟩

theorem claim7_witness :
    ∃ w, lookupC (lastColoring (greedy_steps
        (Graph.mk [0, 1, 2, 3] [(0, 1), (1, 2), (2, 3), (3, 0)]))) w
      = some 0 :=
  (claim7_contiguous (Graph.mk [0, 1, 2, 3] [(0, 1), (1, 2), (2, 3), (3, 0)])
    (by decide) (by decide)).1 1 1 (by decide) 0 (by decide)

/-- C8: one iteration of the DSATUR loop selects an uncolored vertex
whose (saturation, static degree) pair is lexicographically maximal —
greatest saturation, ties broken by greatest degree, remaining ties by
the deterministic fold order — and after the assignment it updates
saturation only at still-uncolored neighbors of the selected vertex,
storing there the recomputed distinct-neighbor-color count; every other
saturation entry is left untouched. -/
theorem claim8_dsatur_selection (G : Graph V) (fuel : ℕ)
    (colors sat : List (V × ℕ)) (u : V) (us : List V) :
    pyMax (satDegKey G sat) u us ∈ u :: us ∧
    (∀ y ∈ u :: us,
      ¬ lexLt (satDegKey G sat (pyMax (satDegKey G sat) u us))
        (satDegKey G sat y)) ∧
    dsaturAux G (fuel + 1) colors sat (u :: us)
      = assignColor G colors (pyMax (satDegKey G sat) u us)
        :: dsaturAux G fuel
            (assignColor G colors (pyMax (satDegKey G sat) u us))
            (updateSat G
              (assignColor G colors (pyMax (satDegKey G sat) u us))
              (u :: us) sat (pyMax (satDegKey G sat) u us))
            ((u :: us).erase (pyMax (satDegKey G sat) u us)) ∧
    (∀ x, x ∉ G.neighbors (pyMax (satDegKey G sat) u us) ∨ x ∉ u :: us →
      lookupC (updateSat G
          (assignColor G colors (pyMax (satDegKey G sat) u us))
          (u :: us) sat (pyMax (satDegKey G sat) u us)) x
        = lookupC sat x) ∧
    (∀ x ∈ G.neighbors (pyMax (satDegKey G sat) u us), x ∈ u :: us →
      lookupC (updateSat G
          (assignColor G colors (pyMax (satDegKey G sat) u us))
          (u :: us) sat (pyMax (satDegKey G sat) u us)) x
        = some (recomputeSat G
            (assignColor G colors (pyMax (satDegKey G sat) u us)) x)) :=
  ⟨pyMax_mem _ _ _, pyMax_maximal _ _ _, rfl,
   fun _ h => updateSat_untouched h,
   fun _ hx hu => updateSat_hit hx hu⟩

theorem claim8_witness :
    pyMax (satDegKey (Graph.mk [0, 1] [(0, 1)]) [(0, 0), (1, 0)]) 0 [1]
      ∈ [0, 1] ∧
    ¬ lexLt
      (satDegKey (Graph.mk [0, 1] [(0, 1)]) [(0, 0), (1, 0)]
        (pyMax (satDegKey (Graph.mk [0, 1] [(0, 1)]) [(0, 0), (1, 0)]) 0 [1]))
      (satDegKey (Graph.mk [0, 1] [(0, 1)]) [(0, 0), (1, 0)] 1) ∧
    lookupC (updateSat (Graph.mk [0, 1] [(0, 1)])
        (assignColor (Graph.mk [0, 1] [(0, 1)]) []
          (pyMax (satDegKey (Graph.mk [0, 1] [(0, 1)]) [(0, 0), (1, 0)]) 0 [1]))
        [0, 1] [(0, 0), (1, 0)]
        (pyMax (satDegKey (Graph.mk [0, 1] [(0, 1)]) [(0, 0), (1, 0)]) 0 [1])) 1
      = some (recomputeSat (Graph.mk [0, 1] [(0, 1)])
          (assignColor (Graph.mk [0, 1] [(0, 1)]) []
            (pyMax (satDegKey (Graph.mk [0, 1] [(0, 1)]) [(0, 0), (1, 0)])
              0 [1])) 1) :=
  ⟨(claim8_dsatur_selection (Graph.mk [0, 1] [(0, 1)]) 1 []
      [(0, 0), (1, 0)] 0 [1]).1,
   (claim8_dsatur_selection (Graph.mk [0, 1] [(0, 1)]) 1 []
      [(0, 0), (1, 0)] 0 [1]).2.1 1 (by decide),
   (claim8_dsatur_selection (Graph.mk [0, 1] [(0, 1)]) 1 []
      [(0, 0), (1, 0)] 0 [1]).2.2.2.2 1 (by decide) (by decide)⟩

/-- C9: the traces of the vertex strategies are append-only sequences
of independent snapshots: each entry extends the previous one by
exactly one freshly assigned key, and every assignment visible in an
earlier entry persists unchanged into all later entries. -/
theorem claim9_append_only (G : Graph V) (hWF : G.WF) :
    AppendOnlyTrace (greedy_steps G) ∧ AppendOnlyTrace (wp_steps G) ∧
      AppendOnlyTrace (dsatur_steps G) :=
  ⟨⟨stepChain_succ (greedy_chain hWF), stepChain_mono (greedy_chain hWF)⟩,
   ⟨stepChain_succ (wp_chain hWF), stepChain_mono (wp_chain hWF)⟩,
   ⟨stepChain_succ (dsatur_chain hWF), stepChain_mono (dsatur_chain hWF)⟩⟩

theorem claim9_witness :
    AppendOnlyTrace (greedy_steps
      (Graph.mk [0, 1, 2, 3] [(0, 1), (1, 2), (2, 3), (3, 0)])) :=
  (claim9_append_only
    (Graph.mk [0, 1, 2, 3] [(0, 1), (1, 2), (2, 3), (3, 0)]) (by decide)).1

/-- C10: for every kind string other than "Cycle", "Aléatoire" and
"Biparti", and any n and p, the graph generator returns the empty
graph (no nodes, no edges) rather than raising an error. -/
theorem claim10_generate_default (rng : ℕ → ℚ → Graph ℕ)
    (graph_type : String) (n : ℕ) (p : ℚ)
    (h1 : graph_type ≠ "Cycle") (h2 : graph_type ≠ "Aléatoire")
    (h3 : graph_type ≠ "Biparti") :
    generate_graph rng graph_type n p = Graph.mk [] [] := by
  rw [generate_graph, if_neg h1, if_neg h2, if_neg h3]

theorem claim10_witness :
    generate_graph (fun _ _ => Graph.mk [] []) "Complet" 5 (1 / 2)
      = Graph.mk [] [] :=
  claim10_generate_default (fun _ _ => Graph.mk [] []) "Complet" 5 (1 / 2)
    (by decide) (by decide) (by decide)

end GraphColoring
